import Mathlib

/-!
Verification development for the hash-acquisition and build-invocation layer
of crate2nix: a shallow embedding of `src/crate2nix/src/prefetch.rs` and
`src/crate2nix/src/nix_build.rs`, followed by theorems settling the spec's
claims about those functions.

External effects are made explicit: the outside world that spawns commands is
a function parameter (`Runner`), the cache file is passed as its textual
content (`Option String`, `none` = unreadable), the nondeterministic
completion order of `buffer_unordered` is an explicit permutation parameter,
and writes to stdout/stderr and to the cache file are returned as data.
-/

set_option maxHeartbeats 1000000

namespace Crate2nix

/-! ## Data model

The types `CrateDerivation` and `ResolvedSource` live in `resolve.rs`, which
is not part of the sources under verification; they are modelled from the
spec (section 3: `PackageIdentity`, `SourceDescriptor`, `CrateDerivation`).
-/

/-- Modelled from the spec: `PackageIdentity` is an opaque, totally ordered,
unique key for one resolved dependency; the embedding uses `String`
(mirroring `cargo_metadata::PackageId`, a string wrapper). -/
abbrev PackageId := String

/-- Modelled from the spec: `SourceDescriptor` is a tagged union of a
registry source (crates.io; name, version, optional hash), a version-control
source (url, revision, optional ref name, optional hash) and `Other` sources
that never need external hashing. `registry` embeds `ResolvedSource::CratesIo`
and `git` embeds `ResolvedSource::Git`. -/
inductive ResolvedSource where
  | registry (name : String) (version : String) (sha256 : Option String)
  | git (url : String) (rev : String) (refName : Option String) (sha256 : Option String)
  | other
deriving DecidableEq, Repr

/-- Modelled from the spec: setting the hash on a source descriptor
(`ResolvedSource::with_sha256`); a descriptor carries at most one hash. -/
def ResolvedSource.with_sha256 : ResolvedSource → String → ResolvedSource
  | .registry n v _, h => .registry n v (some h)
  | .git u r rf _, h => .git u r rf (some h)
  | .other, _ => .other

/-- Modelled from the spec: one entry per resolved package, with its identity,
its source descriptor and the name/version fields that `prefetch.rs` reads
(`crate_name`, `version`). Build metadata opaque to the core is omitted. -/
structure CrateDerivation where
  package_id : PackageId
  crate_name : String
  version : String
  source : ResolvedSource
deriving DecidableEq, Repr

/-! ## Cache file parsing

`prefetch` reads the cache with `std::fs::read_to_string` falling back to the
two-character text of an empty JSON object, followed by
`serde_json::from_str::<BTreeMap<PackageId, String>>`. The
JSON-object-of-strings subset that such a deserialization accepts is embedded
as a small executable recognizer; any input outside the accepted shape is a
deserialization error (`serde` string escapes are not modelled, which only
narrows the accepted set — the success/failure structure is unchanged). -/

def objLBrace : Char := Char.ofNat 123

def objRBrace : Char := Char.ofNat 125

def dQuote : Char := Char.ofNat 34

def isWsChar (c : Char) : Bool :=
  (c = ' ') || (c = '\n') || (c = '\t') || (c = '\r')

def skipWs : List Char → List Char
  | [] => []
  | c :: cs => if isWsChar c then skipWs cs else c :: cs

/-- Embeds Rust's `str::trim`: remove whitespace from both ends. -/
def strTrim (s : String) : String :=
  String.mk (skipWs (List.reverse (skipWs (List.reverse s.toList))))

/-- Lexicographic comparison of character sequences by codepoint; this is the
order `BTreeMap<String, _>` keeps its keys in (UTF-8 byte order coincides
with codepoint order). -/
def charsLt : List Char → List Char → Bool
  | [], [] => false
  | [], _ :: _ => true
  | _ :: _, [] => false
  | a :: as, b :: bs =>
    if a.toNat < b.toNat then true
    else if b.toNat < a.toNat then false
    else charsLt as bs

/-- The `Ord`-order on `String` used by the `BTreeMap` embedding. -/
def strLt (a b : String) : Bool := charsLt a.toList b.toList

/-! ## The hash map (`BTreeMap<PackageId, String>`)

A `BTreeMap` is embedded as an association list kept strictly sorted by key,
which makes structural equality coincide with pointwise (map) equality. -/

/-- Embeds `BTreeMap<PackageId, String>`: an association list strictly sorted
by key. -/
abbrev Hmap := List (String × String)

/-- Lookup in the association list (`BTreeMap::get` / `contains_key`). -/
def hmFind : Hmap → String → Option String
  | [], _ => none
  | (k, v) :: rest, key => if k = key then some v else hmFind rest key

/-- Sorted insert (`BTreeMap::insert`): replaces the value if the key is
present, otherwise inserts at the sorted position. -/
def hmInsert : Hmap → String → String → Hmap
  | [], k, v => [(k, v)]
  | (k0, v0) :: rest, k, v =>
    if strLt k k0 then (k, v) :: (k0, v0) :: rest
    else if k = k0 then (k, v) :: rest
    else (k0, v0) :: hmInsert rest k v

/-- The strict-sortedness invariant of the `BTreeMap` embedding. -/
def hmSorted (m : Hmap) : Prop := m.Pairwise (fun a b => strLt a.1 b.1 = true)

/-- Scan the contents of a JSON string after its opening quote; returns the
content and the remainder after the closing quote. -/
def scanStringChars : List Char → Option (List Char × List Char)
  | [] => none
  | c :: cs =>
    if c = dQuote then some ([], cs)
    else
      match scanStringChars cs with
      | some (content, rest) => some (c :: content, rest)
      | none => none

/-- Parse one `"key": "value"` pair. -/
def parseKeyVal (cs : List Char) : Option ((String × String) × List Char) :=
  match skipWs cs with
  | [] => none
  | c :: cs1 =>
    if c = dQuote then
      match scanStringChars cs1 with
      | none => none
      | some (k, rest) =>
        match skipWs rest with
        | ':' :: rest1 =>
          match skipWs rest1 with
          | [] => none
          | c2 :: rest2 =>
            if c2 = dQuote then
              match scanStringChars rest2 with
              | some (v, rest3) => some ((String.mk k, String.mk v), rest3)
              | none => none
            else none
        | _ => none
    else none

/-- Parse `, "key": "value"` repetitions, with fuel for termination. -/
def parseMorePairs : Nat → List Char → Option (List (String × String) × List Char)
  | 0, _ => none
  | fuel + 1, cs =>
    match skipWs cs with
    | ',' :: rest =>
      match parseKeyVal rest with
      | none => none
      | some (kv, rest1) =>
        match parseMorePairs fuel rest1 with
        | none => none
        | some (kvs, rest2) => some (kv :: kvs, rest2)
    | rest => some ([], rest)

/-- Recognize a whole JSON object of string keys and string values, as
`serde_json::from_str::<BTreeMap<String, String>>` does on its accepted
inputs; `none` embeds a deserialization error. -/
def parseJsonStrObj (s : String) : Option (List (String × String)) :=
  match skipWs s.toList with
  | [] => none
  | c :: cs0 =>
    if c = objLBrace then
      match skipWs cs0 with
      | [] => none
      | c1 :: cs1 =>
        if c1 = objRBrace then
          if (skipWs cs1).isEmpty then some [] else none
        else
          match parseKeyVal (c1 :: cs1) with
          | none => none
          | some (kv, rest) =>
            match parseMorePairs (rest.length + 1) rest with
            | none => none
            | some (kvs, rest1) =>
              match skipWs rest1 with
              | [c2] => if c2 = objRBrace then some ((kv :: kvs)) else none
              | c2 :: rest2 =>
                if c2 = objRBrace then
                  if (skipWs rest2).isEmpty then some ((kv :: kvs)) else none
                else none
              | [] => none
    else none

/-- Build the `BTreeMap` from parsed pairs (later duplicate keys override,
as in serde's map deserialization). -/
def fromJsonStr (s : String) : Option Hmap :=
  (parseJsonStrObj s).map (fun kvs => kvs.foldl (fun m kv => hmInsert m kv.1 kv.2) [])

/-- The literal text of an empty JSON object, `read_to_string`'s fallback. -/
def emptyObjText : String := String.mk [objLBrace, objRBrace]

/-- Errors of the prefetch subsystem (the distinct `failure::Error` values
that `prefetch.rs` can produce). -/
inductive PrefetchError where
  | cacheCorrupt
  | processSpawnFailed (cmd : String)
  | processExitedNonzero (cmd : String) (code : Int)
  | outputNotDecodable (cmd : String)
  | gitOutputNotParsable
  | invalidSourceType
  | unreachableSource
deriving DecidableEq, Repr

/-- Embeds lines 22-25 of `prefetch.rs`: an unreadable cache file is replaced
by the text of an empty object before deserialization; a deserialization
error aborts. `none` models a file that is missing or unreadable. -/
def loadHashes (file : Option String) : Except PrefetchError Hmap :=
  match fromJsonStr (file.getD emptyObjText) with
  | some m => .ok m
  | none => .error .cacheCorrupt

/-! ## External commands (`get_command_output` and the two fetchers) -/

/-- Raw bytes on a captured stream: either valid UTF-8 with the decoded text,
or not decodable (`String::from_utf8` failure). -/
inductive Bytes where
  | utf8 (s : String)
  | notUtf8
deriving DecidableEq, Repr

/-- What `Command::output()` returns when the process ran: `status.success()`,
`status.code()`, and the captured streams. -/
structure CmdOutput where
  success : Bool
  code : Option Int
  stdout : Bytes
  stderr : Bytes
deriving DecidableEq, Repr

/-- Outcome of attempting to spawn an external command. -/
inductive SpawnOutcome where
  | spawnFailed
  | completed (o : CmdOutput)
deriving DecidableEq, Repr

/-- The external world: maps a command name and argument list to what running
that command produces. -/
abbrev Runner := String → List String → SpawnOutcome

/-- Data written to the standard streams of the tool itself. -/
inductive Emission where
  | outBytes (b : Bytes)
  | errBytes (b : Bytes)
deriving DecidableEq, Repr

/-- Embeds `get_command_output` (prefetch.rs lines 100-120): spawn failure is
an error naming the command; a non-success status first surfaces the captured
stdout and stderr verbatim and then fails with the exit code (`-1` when the
code is absent); otherwise stdout is decoded as UTF-8 and trimmed, a decode
failure being an error. The emissions list is what the function wrote to the
tool's own stdout/stderr. -/
def get_command_output (run : Runner) (cmd : String) (args : List String) :
    List Emission × Except PrefetchError String :=
  match run cmd args with
  | .spawnFailed => ([], .error (.processSpawnFailed cmd))
  | .completed o =>
    if o.success then
      match o.stdout with
      | .utf8 s => ([], .ok (strTrim s))
      | .notUtf8 => ([], .error (.outputNotDecodable cmd))
    else
      ([.outBytes o.stdout, .errBytes o.stderr],
        .error (.processExitedNonzero cmd (o.code.getD (-1))))

/-- The crates.io download URL built by `nix_prefetch_from_crates_io`. -/
def cratesIoUrl (d : CrateDerivation) : String :=
  "https://crates.io/api/v1/crates/" ++ d.crate_name ++ "/" ++ d.version ++ "/download"

/-- Embeds `nix_prefetch_from_crates_io` (lines 123-139): one invocation of
`nix-prefetch-url` whose trimmed stdout is the hash. -/
def nix_prefetch_from_crates (run : Runner) (d : CrateDerivation) :
    List Emission × Except PrefetchError String :=
  get_command_output run "nix-prefetch-url"
    [cratesIoUrl d, "--name", d.crate_name ++ "-" ++ d.version]

/-- The argument list built by `nix_prefetch_from_git` (lines 156-164). -/
def gitArgs (url rev : String) (refName : Option String) : List String :=
  ["--url", url, "--fetch-submodules", "--rev", rev] ++
    (match refName with
     | some r => ["--branch-name", r]
     | none => [])

/-- Extraction of the `sha256` field from the JSON payload, embedding
`serde_json::from_str::<NixPrefetchGitInfo>` (the payload is modelled with
the same JSON-object-of-strings subset as the cache file). -/
def gitInfoSha256 (json : String) : Option String :=
  (parseJsonStrObj json).bind (fun kvs => (kvs.find? (fun kv => kv.1 = "sha256")).map (·.2))

/-- Embeds `nix_prefetch_from_git` (lines 151-174): only a `Git` source is
accepted; `nix-prefetch-git` is invoked and its stdout parsed as a JSON
payload from which `sha256` is extracted, a parse failure being an error. -/
def nix_prefetch_from_git (run : Runner) (d : CrateDerivation) :
    List Emission × Except PrefetchError String :=
  match d.source with
  | .git url rev refName _ =>
    match get_command_output run "nix-prefetch-git" (gitArgs url rev refName) with
    | (em, .error e) => (em, .error e)
    | (em, .ok json) =>
      match gitInfoSha256 json with
      | some sha => (em, .ok sha)
      | none => (em, .error .gitOutputNotParsable)
  | _ => ([], .error .invalidSourceType)

/-! ## The prefetch coordinator -/

/-- The selection filter of lines 31-38: registry packages still lacking a
hash, and all git packages. -/
def isSelected (d : CrateDerivation) : Bool :=
  match d.source with
  | .registry _ _ none => true
  | .git _ _ _ _ => true
  | _ => false

/-- The packages prefetch works on (`packages`, lines 31-38). -/
def selectedOf (ds : List CrateDerivation) : List CrateDerivation :=
  ds.filter isSelected

/-- `itertools::unique_by`: keep the first occurrence of each key. -/
def uniqueByAux (f : CrateDerivation → ResolvedSource) :
    List CrateDerivation → List ResolvedSource → List CrateDerivation
  | [], _ => []
  | a :: as, seen =>
    if f a ∈ seen then uniqueByAux f as seen
    else a :: uniqueByAux f as (f a :: seen)

/-- `without_hash_num` (lines 39-43): the number of unique sources among
selected packages whose identity has no cached hash; this is the length of
the progress bar. -/
def totalOf (old : Hmap) (ds : List CrateDerivation) : Nat :=
  (uniqueByAux (fun p => p.source)
    ((selectedOf ds).filter (fun p => (hmFind old p.package_id).isNone)) []).length

/-- The triple a fetch task yields on success (line 67-71): the source with
its hash filled in, the package identity, and the hash. -/
structure FetchedTriple where
  src : ResolvedSource
  pid : PackageId
  sha : String
deriving DecidableEq, Repr

/-- The fetch dispatch inside a task (lines 59-63): match on the source kind;
the `unreachable!` arm for other sources is an error value in the model. -/
def fetchSource (run : Runner) (p : CrateDerivation) : Except PrefetchError String :=
  match p.source with
  | .registry _ _ _ => (nix_prefetch_from_crates run p).2
  | .git _ _ _ _ => (nix_prefetch_from_git run p).2
  | .other => .error .unreachableSource

/-- One fetch task (lines 55-72): a cached hash is trimmed and used without
any external invocation; otherwise the source is fetched and the progress
counter incremented once. The `Nat` is the number of `inc(1)` calls the task
performed. -/
def runTask (run : Runner) (old : Hmap) (p : CrateDerivation) :
    Except PrefetchError (FetchedTriple × Nat) :=
  match hmFind old p.package_id with
  | some hash =>
    .ok (⟨p.source.with_sha256 (strTrim hash), p.package_id, strTrim hash⟩, 0)
  | none =>
    match fetchSource run p with
    | .error e => .error e
    | .ok sha => .ok (⟨p.source.with_sha256 sha, p.package_id, sha⟩, 1)

/-- The completion order of `buffer_unordered`: an explicit permutation of
indices selects results in the order they complete. -/
def permuteResults (perm : List Nat) (xs : List α) : List α :=
  perm.filterMap (fun i => xs[i]?)

/-- `try_collect` over the completed results: the first error in completion
order aborts, otherwise all values are collected in completion order. -/
def sequenceResults : List (Except PrefetchError α) → Except PrefetchError (List α)
  | [] => .ok []
  | .error e :: _ => .error e
  | .ok a :: rest => (sequenceResults rest).map (fun as => a :: as)

/-- The collected triples of a run (lines 77-79). -/
def collectOf (run : Runner) (old : Hmap) (perm : List Nat)
    (ds : List CrateDerivation) : Except PrefetchError (List (FetchedTriple × Nat)) :=
  sequenceResults (permuteResults perm ((selectedOf ds).map (runTask run old)))

/-- The write-back loop of lines 81-84 as it acts on the full derivation
list: `packages.iter_mut().zip(triples)` pairs the i-th selected derivation
with the i-th collected triple — a positional zip, not a lookup by
identity — and stores the triple's source into it. -/
def writeBack : List CrateDerivation → List FetchedTriple → List CrateDerivation
  | [], _ => []
  | ds, [] => ds
  | d :: ds, t :: ts =>
    if isSelected d then { d with source := t.src } :: writeBack ds ts
    else d :: writeBack ds (t :: ts)

/-- The fresh hash mapping built inside the same loop (line 83): each triple
is inserted keyed by its own package identity. -/
def hashesOf (pairs : List (FetchedTriple × Nat)) : Hmap :=
  (pairs.map (fun pr => pr.1)).foldl (fun m t => hmInsert m t.pid t.sha) []

/-- Everything a prefetch run produces: the returned value, the caller's
derivation list after the run, the cache contents written to disk (`none`
when no write occurred), and the length the progress bar was created with. -/
structure PrefetchOutcome where
  result : Except PrefetchError Hmap
  derivations : List CrateDerivation
  written : Option Hmap
  progressTotal : Nat
deriving Repr

/-- Embeds lines 27-97 of `prefetch` after the cache has been loaded:
select packages, size the progress bar, run the tasks (completion order given
by `perm`), collect with short-circuit on error, zip the triples back into
the selected derivations positionally, build the fresh mapping keyed by
identity, and write the cache file only when the fresh mapping differs from
the loaded one. -/
def prefetchCore (run : Runner) (old : Hmap) (perm : List Nat)
    (ds : List CrateDerivation) : PrefetchOutcome :=
  match collectOf run old perm ds with
  | .error e => ⟨.error e, ds, none, totalOf old ds⟩
  | .ok pairs =>
    ⟨.ok (hashesOf pairs),
      writeBack ds (pairs.map (fun pr => pr.1)),
      if hashesOf pairs = old then none else some (hashesOf pairs),
      totalOf old ds⟩

/-- Embeds `prefetch` (lines 18-98): load the cache from the file contents,
abort on a corrupt cache, then run the coordinator. -/
def prefetch (run : Runner) (file : Option String) (perm : List Nat)
    (ds : List CrateDerivation) : PrefetchOutcome :=
  match loadHashes file with
  | .error e => ⟨.error e, ds, none, 0⟩
  | .ok old => prefetchCore run old perm ds

/-- The number of selected packages whose task takes the external-fetch
branch rather than the cache short-circuit. -/
def externalFetches (old : Hmap) (ds : List CrateDerivation) : Nat :=
  ((selectedOf ds).filter (fun p => (hmFind old p.package_id).isNone)).length

/-! ## Build invocation (`nix_build.rs`) -/

/-- Errors of `nix_build`. -/
inductive BuildError where
  | spawnFailed (dir : String)
  | dumpReadFailed
  | buildFailed (dir : String) (code : Int)
deriving DecidableEq, Repr

/-- Outcome of `Command::status()` for the builder: spawn failure, or an exit
with `status.success()` and `status.code()`. -/
inductive BuildStatus where
  | spawnFailed
  | exited (success : Bool) (code : Option Int)
deriving DecidableEq, Repr

/-- Rust's `{:>5}` on the line number: right-align in a field of width 5,
padding with spaces, never truncating. -/
def padLeft5 (s : String) : String :=
  String.mk (List.replicate (5 - s.length) ' ') ++ s

/-- Embeds `dump_with_lines` (nix_build.rs lines 61-73) on the lines of the
file: each line is written to stdout prefixed by its 1-based line number
right-aligned in 5 characters, a colon and a space. -/
def dump_with_lines (lines : List String) : List String :=
  lines.enum.map (fun p => padLeft5 (toString (p.1 + 1)) ++ ": " ++ p.2)

/-- What a `nix_build` call produces: the lines written to stdout, the
messages written to stderr, and the returned value. -/
structure BuildOutcome where
  stdoutLines : List String
  stderrMsgs : List String
  result : Except BuildError Unit
deriving Repr

/-- Embeds `nix_build` (nix_build.rs lines 13-58): announce the build; on
spawn failure fail with a spawn error; on success report success; on a
non-success exit, dump the `default.nix` of the directory (given here as its
lines, `none` when unreadable, in which case the read error propagates) and
fail tagged with the exit code, `-1` when absent. -/
def nix_build (dir : String) (status : BuildStatus) (defaultNix : Option (List String)) :
    BuildOutcome :=
  match status with
  | .spawnFailed => ⟨[], ["Building " ++ dir ++ "."], .error (.spawnFailed dir)⟩
  | .exited true _ =>
    ⟨[], ["Building " ++ dir ++ ".", "Built " ++ dir ++ " successfully."], .ok ()⟩
  | .exited false code =>
    match defaultNix with
    | none => ⟨[], ["Building " ++ dir ++ "."], .error .dumpReadFailed⟩
    | some lines =>
      ⟨dump_with_lines lines, ["Building " ++ dir ++ "."],
        .error (.buildFailed dir (code.getD (-1)))⟩


/-! ## Concrete fixtures used in closed instances -/

/-- A registry package lacking a hash. -/
def exDeriv1 : CrateDerivation := ⟨"id-a", "a", "1.0.0", .registry "a" "1.0.0" none⟩

/-- A git package. -/
def exDeriv2 : CrateDerivation := ⟨"id-b", "b", "2.0.0", .git "https://ex.org/r" "dead" none none⟩

/-- An external world in which both prefetch commands succeed: the registry
fetch prints the hash `HASHA`, the git fetch prints a JSON payload whose
`sha256` field is `HASHB`. -/
def exRun : Runner := fun cmd _ =>
  if cmd = "nix-prefetch-url" then .completed ⟨true, some 0, .utf8 "HASHA", .utf8 ""⟩
  else .completed ⟨true, some 0, .utf8 "\x7b \"sha256\": \"HASHB\" \x7d", .utf8 ""⟩

/-- An external world in which no command can be spawned. -/
def exRunFail : Runner := fun _ _ => .spawnFailed

/-- An external world in which every command exits with status 3. -/
def exRunExit : Runner := fun _ _ => .completed ⟨false, some 3, .utf8 "out", .utf8 "err"⟩

/-- An external world in which commands succeed but print bytes that are not
valid UTF-8. -/
def exRunBad : Runner := fun _ _ => .completed ⟨true, some 0, .notUtf8, .utf8 ""⟩

/-- An external world in which commands succeed but print text that is not a
JSON payload. -/
def exRunNotJson : Runner := fun _ _ => .completed ⟨true, some 0, .utf8 "gar", .utf8 ""⟩

/-- Cache file text mapping the identity of `exDeriv1` to the hash `H`. -/
def exCacheText : String := "\x7b\"id-a\": \"H\"\x7d"

/-! ## Order lemmas for the `BTreeMap` key order -/

theorem char_eq_of_toNat_eq {a b : Char} (h : a.toNat = b.toNat) : a = b := by
  apply Char.eq_of_val_eq
  apply UInt32.eq_of_toBitVec_eq
  apply BitVec.eq_of_toNat_eq
  simpa [Char.toNat, UInt32.toNat] using h

theorem string_eq_of_toList_eq {a b : String} (h : a.toList = b.toList) : a = b := by
  cases a
  cases b
  simp only [String.toList] at h
  exact congrArg String.mk h

theorem charsLt_irrefl (l : List Char) : charsLt l l = false := by
  induction l with
  | nil => rfl
  | cons a as ih => simp [charsLt, ih]

theorem charsLt_trans {a : List Char} : ∀ {b c : List Char},
    charsLt a b = true → charsLt b c = true → charsLt a c = true := by
  induction a with
  | nil =>
    intro b c hab hbc
    cases b <;> cases c <;> simp_all [charsLt]
  | cons x as ih =>
    intro b c hab hbc
    cases b with
    | nil => simp [charsLt] at hab
    | cons y bs =>
      cases c with
      | nil => simp [charsLt] at hbc
      | cons z cs =>
        simp only [charsLt] at hab hbc ⊢
        by_cases h1 : x.toNat < y.toNat
        · by_cases h2 : y.toNat < z.toNat
          · rw [if_pos (by omega : x.toNat < z.toNat)]
          · by_cases h3 : z.toNat < y.toNat
            · rw [if_neg h2, if_pos h3] at hbc
              cases hbc
            · rw [if_pos (by omega : x.toNat < z.toNat)]
        · by_cases h2 : y.toNat < x.toNat
          · rw [if_neg h1, if_pos h2] at hab
            cases hab
          · rw [if_neg h1, if_neg h2] at hab
            by_cases h3 : y.toNat < z.toNat
            · rw [if_pos (by omega : x.toNat < z.toNat)]
            · by_cases h4 : z.toNat < y.toNat
              · rw [if_neg h3, if_pos h4] at hbc
                cases hbc
              · rw [if_neg h3, if_neg h4] at hbc
                rw [if_neg (by omega : ¬x.toNat < z.toNat),
                  if_neg (by omega : ¬z.toNat < x.toNat)]
                exact ih hab hbc

theorem charsLt_eq_of_not {a : List Char} : ∀ {b : List Char},
    charsLt a b = false → charsLt b a = false → a = b := by
  induction a with
  | nil =>
    intro b hab _
    cases b with
    | nil => rfl
    | cons y bs => simp [charsLt] at hab
  | cons x as ih =>
    intro b hab hba
    cases b with
    | nil => simp [charsLt] at hba
    | cons y bs =>
      simp only [charsLt] at hab hba
      by_cases h1 : x.toNat < y.toNat
      · rw [if_pos h1] at hab
        cases hab
      · by_cases h2 : y.toNat < x.toNat
        · rw [if_pos h2] at hba
          cases hba
        · rw [if_neg h1, if_neg h2] at hab
          rw [if_neg h2, if_neg h1] at hba
          have hxy : x = y := char_eq_of_toNat_eq (by omega)
          have htails : as = bs := ih hab hba
          simp [hxy, htails]

theorem strLt_irrefl (s : String) : strLt s s = false := by
  simp [strLt, charsLt_irrefl]

theorem strLt_trans {a b c : String} (hab : strLt a b = true) (hbc : strLt b c = true) :
    strLt a c = true := by
  simpa [strLt] using charsLt_trans (by simpa [strLt] using hab) (by simpa [strLt] using hbc)

theorem strLt_eq_of_not {a b : String} (hab : strLt a b = false) (hba : strLt b a = false) :
    a = b := by
  apply string_eq_of_toList_eq
  exact charsLt_eq_of_not (by simpa [strLt] using hab) (by simpa [strLt] using hba)

theorem strLt_ne {a b : String} (h : strLt a b = true) : a ≠ b := by
  intro he
  rw [he, strLt_irrefl] at h
  cases h

/-! ## Lemmas about the `BTreeMap` embedding -/

theorem hmFind_insert (k v : String) : ∀ (m : Hmap) (key : String),
    hmFind (hmInsert m k v) key = if key = k then some v else hmFind m key := by
  intro m
  induction m with
  | nil =>
    intro key
    by_cases h : key = k
    · simp [hmInsert, hmFind, h]
    · have h' : ¬(k = key) := fun he => h he.symm
      simp [hmInsert, hmFind, h, h']
  | cons p rest ih =>
    intro key
    obtain ⟨k0, v0⟩ := p
    simp only [hmInsert]
    by_cases h1 : strLt k k0 = true
    · rw [if_pos h1]
      by_cases h : key = k
      · subst h
        simp [hmFind]
      · have h' : ¬(k = key) := fun he => h he.symm
        simp [hmFind, h, h']
    · rw [if_neg h1]
      by_cases h2 : k = k0
      · rw [if_pos h2]
        by_cases h : key = k
        · subst h
          simp [hmFind]
        · have h' : ¬(k = key) := fun he => h he.symm
          have h0 : ¬(k0 = key) := fun he => h' (h2.trans he)
          simp [hmFind, h, h', h0]
      · rw [if_neg h2]
        by_cases h : key = k
        · have hne : ¬(k0 = k) := fun he => h2 he.symm
          subst h
          simp [hmFind, hne, ih]
        · by_cases h0 : k0 = key
          · simp [hmFind, h0, h]
          · simp [hmFind, h0, ih, h]

theorem mem_hmInsert {b : String × String} {k v : String} : ∀ {m : Hmap},
    b ∈ hmInsert m k v → b = (k, v) ∨ b ∈ m := by
  intro m
  induction m with
  | nil => intro h; simpa [hmInsert] using h
  | cons p rest ih =>
    intro h
    obtain ⟨k0, v0⟩ := p
    simp only [hmInsert] at h
    by_cases h1 : strLt k k0 = true
    · rw [if_pos h1] at h
      simp only [List.mem_cons] at h
      rcases h with h | h | h
      · exact .inl h
      · exact .inr (by simp [h])
      · exact .inr (by simp [h])
    · rw [if_neg h1] at h
      by_cases h2 : k = k0
      · rw [if_pos h2] at h
        simp only [List.mem_cons] at h
        rcases h with h | h
        · exact .inl h
        · exact .inr (by simp [h])
      · rw [if_neg h2] at h
        simp only [List.mem_cons] at h
        rcases h with h | h
        · exact .inr (by simp [h])
        · rcases ih h with h' | h'
          · exact .inl h'
          · exact .inr (by simp [h'])

theorem hmSorted_nil : hmSorted [] := List.Pairwise.nil

theorem hmSorted_insert {k v : String} : ∀ {m : Hmap},
    hmSorted m → hmSorted (hmInsert m k v) := by
  intro m
  induction m with
  | nil => intro _; simp [hmInsert, hmSorted]
  | cons p rest ih =>
    intro hs
    obtain ⟨k0, v0⟩ := p
    rw [hmSorted, List.pairwise_cons] at hs
    obtain ⟨hhead, htail⟩ := hs
    simp only [hmInsert]
    split_ifs with h1 h2
    · rw [hmSorted, List.pairwise_cons]
      refine ⟨?_, ?_⟩
      · intro b hb
        rcases List.mem_cons.mp hb with h | h
        · simpa [h] using h1
        · exact strLt_trans h1 (hhead b h)
      · exact List.pairwise_cons.mpr ⟨hhead, htail⟩
    · subst h2
      rw [hmSorted, List.pairwise_cons]
      exact ⟨hhead, htail⟩
    · have hlt : strLt k0 k = true := by
        cases hv : strLt k0 k
        · exact absurd (strLt_eq_of_not hv (by simpa using h1)) (fun he => h2 he.symm)
        · rfl
      rw [hmSorted, List.pairwise_cons]
      refine ⟨?_, ih htail⟩
      intro b hb
      rcases mem_hmInsert hb with h | h
      · simpa [h] using hlt
      · exact hhead b h

theorem hmFind_eq_none_of_forall_lt {k : String} : ∀ {m : Hmap},
    (∀ b ∈ m, strLt k b.1 = true) → hmFind m k = none := by
  intro m
  induction m with
  | nil => intro _; rfl
  | cons p rest ih =>
    intro h
    obtain ⟨k1, v1⟩ := p
    have hk1 : strLt k k1 = true := h (k1, v1) (by simp)
    have hne : k1 ≠ k := fun he => strLt_ne hk1 he.symm
    simp only [hmFind, hne, if_false]
    exact ih (fun b hb => h b (by simp [hb]))

theorem hmFind_mem {key v : String} : ∀ {m : Hmap}, hmFind m key = some v → (key, v) ∈ m := by
  intro m
  induction m with
  | nil => intro h; cases h
  | cons p rest ih =>
    intro h
    obtain ⟨k1, v1⟩ := p
    simp only [hmFind] at h
    by_cases he : k1 = key
    · rw [if_pos he] at h
      cases h
      subst he
      simp
    · rw [if_neg he] at h
      exact List.mem_cons.mpr (.inr (ih h))

theorem hmExt : ∀ {a b : Hmap}, hmSorted a → hmSorted b →
    (∀ k, hmFind a k = hmFind b k) → a = b := by
  intro a
  induction a with
  | nil =>
    intro b _ _ h
    cases b with
    | nil => rfl
    | cons q bs =>
      have := h q.1
      simp [hmFind] at this
  | cons p as ih =>
    intro b hsa hsb h
    cases b with
    | nil =>
      have := h p.1
      simp [hmFind] at this
    | cons q bs =>
      obtain ⟨k, v⟩ := p
      obtain ⟨k', v'⟩ := q
      rw [hmSorted, List.pairwise_cons] at hsa hsb
      obtain ⟨hheada, htaila⟩ := hsa
      obtain ⟨hheadb, htailb⟩ := hsb
      have hkk' : k = k' := by
        by_contra hne
        have h1 : hmFind ((k', v') :: bs) k = some v := by
          have := h k
          simpa [hmFind] using this.symm
        have h2 : hmFind ((k, v) :: as) k' = some v' := by
          have := h k'
          simpa [hmFind] using this
        rw [hmFind] at h1 h2
        rw [if_neg (fun he => hne he.symm)] at h1
        rw [if_neg hne] at h2
        have hm1 := hmFind_mem h1
        have hm2 := hmFind_mem h2
        have hlt1 : strLt k' k = true := hheadb _ hm1
        have hlt2 : strLt k k' = true := hheada _ hm2
        have := strLt_trans hlt1 hlt2
        rw [strLt_irrefl] at this
        cases this
      subst hkk'
      have hvv' : v = v' := by
        have := h k
        simpa [hmFind] using this
      subst hvv'
      have htails : as = bs := by
        apply ih htaila htailb
        intro key
        by_cases hkey : key = k
        · subst hkey
          rw [hmFind_eq_none_of_forall_lt hheada, hmFind_eq_none_of_forall_lt hheadb]
        · have hkey' : ¬(k = key) := fun he => hkey he.symm
          have := h key
          simpa [hmFind, hkey'] using this
      rw [htails]

/-! ## Lemmas about folds building the fresh mapping -/

theorem hmSorted_foldl {α : Type} (key val : α → String) :
    ∀ (l : List α) (init : Hmap), hmSorted init →
      hmSorted (l.foldl (fun m x => hmInsert m (key x) (val x)) init) := by
  intro l
  induction l with
  | nil => intro init h; exact h
  | cons a as ih =>
    intro init h
    exact ih (hmInsert init (key a) (val a)) (hmSorted_insert h)

theorem hmFind_foldl_isSome {α : Type} (key val : α → String) {k : String} :
    ∀ (l : List α) (init : Hmap), (hmFind init k).isSome →
      (hmFind (l.foldl (fun m x => hmInsert m (key x) (val x)) init) k).isSome := by
  intro l
  induction l with
  | nil => intro init h; exact h
  | cons a as ih =>
    intro init h
    apply ih
    rw [hmFind_insert]
    by_cases he : k = key a
    · simp [he]
    · simpa [he] using h

theorem hmFind_foldl_mem {α : Type} (key val : α → String) {t : α} :
    ∀ {l : List α}, t ∈ l → ∀ (init : Hmap),
      (hmFind (l.foldl (fun m x => hmInsert m (key x) (val x)) init) (key t)).isSome := by
  intro l
  induction l with
  | nil => intro h; cases h
  | cons a as ih =>
    intro h init
    rcases List.mem_cons.mp h with he | hmem
    · subst he
      rw [List.foldl_cons]
      apply hmFind_foldl_isSome
      rw [hmFind_insert]
      simp
    · rw [List.foldl_cons]
      exact ih hmem (hmInsert init (key a) (val a))

/-! ## Lemmas about result collection and completion order -/

theorem sequenceResults_ok {α : Type} : ∀ {l : List (Except PrefetchError α)} {xs : List α},
    sequenceResults l = .ok xs → l = xs.map Except.ok := by
  intro l
  induction l with
  | nil =>
    intro xs h
    simp only [sequenceResults] at h
    cases h
    rfl
  | cons e rest ih =>
    intro xs h
    cases e with
    | error e0 => simp [sequenceResults] at h
    | ok a =>
      simp only [sequenceResults] at h
      cases hr : sequenceResults rest with
      | error e0 => rw [hr] at h; simp [Except.map] at h
      | ok ys =>
        rw [hr] at h
        simp only [Except.map] at h
        cases h
        simp [ih hr]

theorem sequenceResults_error_of_mem {α : Type} {e : PrefetchError} :
    ∀ {l : List (Except PrefetchError α)}, Except.error e ∈ l →
      ∃ e2, sequenceResults l = .error e2 := by
  intro l
  induction l with
  | nil => intro h; cases h
  | cons x rest ih =>
    intro h
    rcases List.mem_cons.mp h with he | hmem
    · exact ⟨e, by rw [← he]; rfl⟩
    · clear h
      cases x with
      | error e0 => exact ⟨e0, rfl⟩
      | ok a =>
        obtain ⟨e2, he2⟩ := ih hmem
        exact ⟨e2, by simp [sequenceResults, he2, Except.map]⟩

theorem filterMap_getElem_range {α : Type} :
    ∀ (xs : List α), (List.range xs.length).filterMap (fun i => xs[i]?) = xs := by
  intro xs
  induction xs with
  | nil => simp
  | cons a t ih =>
    rw [List.length_cons, List.range_succ_eq_map, List.filterMap_cons]
    simp only [List.getElem?_cons_zero]
    rw [List.filterMap_map]
    have hcomp : ((fun i => (a :: t)[i]?) ∘ Nat.succ) = fun i => t[i]? := by
      funext i
      simp
    rw [hcomp, ih]

theorem permuteResults_perm {α : Type} {perm : List Nat} {xs : List α}
    (h : perm.Perm (List.range xs.length)) : (permuteResults perm xs).Perm xs := by
  have hp := List.Perm.filterMap (fun i => xs[i]?) h
  rw [filterMap_getElem_range] at hp
  exact hp

/-! ## Lemmas about a single fetch task -/

theorem runTask_ok_pid {run : Runner} {old : Hmap} {p : CrateDerivation}
    {pr : FetchedTriple × Nat} (h : runTask run old p = .ok pr) :
    pr.1.pid = p.package_id := by
  unfold runTask at h
  cases hf : hmFind old p.package_id with
  | some hash =>
    rw [hf] at h
    cases h
    rfl
  | none =>
    rw [hf] at h
    cases hs : fetchSource run p with
    | error e => rw [hs] at h; cases h
    | ok sha =>
      rw [hs] at h
      cases h
      rfl

theorem runTask_cached {run run2 : Runner} {old : Hmap} {p : CrateDerivation} {h : String}
    (hc : hmFind old p.package_id = some h) :
    runTask run old p = runTask run2 old p ∧
      runTask run old p =
        .ok (⟨p.source.with_sha256 (strTrim h), p.package_id, strTrim h⟩, 0) := by
  unfold runTask
  rw [hc]
  exact ⟨rfl, rfl⟩

/-! ## Lemmas about the coordinator -/

theorem collectOf_ok_results {run : Runner} {old : Hmap} {perm : List Nat}
    {ds : List CrateDerivation} {pairs : List (FetchedTriple × Nat)}
    (hperm : perm.Perm (List.range (selectedOf ds).length))
    (hok : collectOf run old perm ds = .ok pairs) :
    ((selectedOf ds).map (runTask run old)).Perm (pairs.map Except.ok) := by
  have hlen : ((selectedOf ds).map (runTask run old)).length = (selectedOf ds).length :=
    List.length_map _ _
  have hpp : (permuteResults perm ((selectedOf ds).map (runTask run old))).Perm
      ((selectedOf ds).map (runTask run old)) := by
    apply permuteResults_perm
    rw [hlen]
    exact hperm
  have hseq := sequenceResults_ok hok
  rw [hseq] at hpp
  exact hpp.symm

theorem prefetchCore_ok_find {run : Runner} {old : Hmap} {perm : List Nat}
    {ds : List CrateDerivation} {m : Hmap}
    (hperm : perm.Perm (List.range (selectedOf ds).length))
    (hok : (prefetchCore run old perm ds).result = .ok m) :
    ∀ p ∈ selectedOf ds, (hmFind m p.package_id).isSome := by
  intro p hp
  cases hc : collectOf run old perm ds with
  | error e =>
    rw [prefetchCore, hc] at hok
    cases hok
  | ok pairs =>
    rw [prefetchCore, hc] at hok
    simp only at hok
    cases hok
    have hmem : runTask run old p ∈ (selectedOf ds).map (runTask run old) :=
      List.mem_map_of_mem _ hp
    have hperm2 := collectOf_ok_results hperm hc
    have hmem2 : runTask run old p ∈ pairs.map Except.ok := hperm2.mem_iff.mp hmem
    obtain ⟨pr, hpr, hpr2⟩ := List.mem_map.mp hmem2
    have hpid : pr.1.pid = p.package_id := runTask_ok_pid hpr2.symm
    have hmem3 : pr.1 ∈ pairs.map (fun pr2 => pr2.1) := List.mem_map_of_mem _ hpr
    have := hmFind_foldl_mem (fun t : FetchedTriple => t.pid) (fun t => t.sha) hmem3 []
    rw [hpid] at this
    exact this

theorem hashesOf_sorted (pairs : List (FetchedTriple × Nat)) : hmSorted (hashesOf pairs) := by
  unfold hashesOf
  exact hmSorted_foldl (fun t : FetchedTriple => t.pid) (fun t : FetchedTriple => t.sha)
    (pairs.map (fun pr => pr.1)) [] List.Pairwise.nil

theorem loadHashes_sorted {file : Option String} {old : Hmap}
    (h : loadHashes file = .ok old) : hmSorted old := by
  unfold loadHashes at h
  cases hj : fromJsonStr (file.getD emptyObjText) with
  | none => rw [hj] at h; cases h
  | some m =>
    rw [hj] at h
    cases h
    unfold fromJsonStr at hj
    cases hp : parseJsonStrObj (file.getD emptyObjText) with
    | none => rw [hp] at hj; cases hj
    | some kvs =>
      rw [hp] at hj
      simp only [Option.map] at hj
      cases hj
      exact hmSorted_foldl (fun kv => kv.1) (fun kv => kv.2) kvs [] List.Pairwise.nil

/-! ## Counting unique sources -/

theorem uniqueByAux_length (f : CrateDerivation → ResolvedSource) :
    ∀ (l : List CrateDerivation) (seen : List ResolvedSource),
      (uniqueByAux f l seen).length = ((l.map f).toFinset \ seen.toFinset).card := by
  intro l
  induction l with
  | nil => intro seen; simp [uniqueByAux]
  | cons a as ih =>
    intro seen
    by_cases h : f a ∈ seen
    · rw [uniqueByAux, if_pos h, ih, List.map_cons, List.toFinset_cons,
        Finset.insert_sdiff_of_mem _ (List.mem_toFinset.mpr h)]
    · rw [uniqueByAux, if_neg h, List.length_cons, ih, List.map_cons, List.toFinset_cons,
        List.toFinset_cons, Finset.sdiff_insert,
        Finset.insert_sdiff_of_not_mem _ (fun hc => h (List.mem_toFinset.mp hc))]
      by_cases hx : f a ∈ (as.map f).toFinset \ seen.toFinset
      · rw [Finset.card_erase_add_one hx, Finset.insert_eq_self.mpr hx]
      · rw [Finset.erase_eq_of_not_mem hx, Finset.card_insert_of_not_mem hx]

/-! ## Claim theorems -/

/-- C1: the claim states that results are written back into the corresponding
`CrateDerivation` by looking up on the package identity, never by positional
correspondence with the input list. The code violates this: lines 81-84 zip
the selected packages positionally against the triples collected in
completion order. Evaluated here: two packages with distinct sources, fetched
successfully, completing in reversed order `[1, 0]`; the returned mapping is
correct (keyed by each triple's own identity), but the first derivation
(identity `id-a`, a registry source) receives the second package's git source
and hash `HASHB`, and vice versa. -/
theorem claim1_positional_write_back :
    (prefetch exRun none [1, 0] [exDeriv1, exDeriv2]).result =
        .ok [("id-a", "HASHA"), ("id-b", "HASHB")] ∧
    (prefetch exRun none [1, 0] [exDeriv1, exDeriv2]).derivations.map (fun d => d.source) =
        [.git "https://ex.org/r" "dead" none (some "HASHB"),
          .registry "a" "1.0.0" (some "HASHA")] ∧
    (prefetch exRun none [0, 1] [exDeriv1, exDeriv2]).derivations.map (fun d => d.source) =
        [.registry "a" "1.0.0" (some "HASHA"),
          .git "https://ex.org/r" "dead" none (some "HASHB")] :=
  ⟨rfl, by decide, by decide⟩

/-- C6: loading the cache treats a missing (unreadable) file as an empty
mapping and succeeds, and fails with the cache-corruption error if and only
if the file exists but its contents are not accepted as a JSON object of the
identity-to-hash shape. -/
theorem claim6_load_semantics :
    loadHashes none = .ok [] ∧
    (∀ file, loadHashes file = .error .cacheCorrupt ↔
      ∃ s, file = some s ∧ parseJsonStrObj s = none) := by
  refine ⟨rfl, ?_⟩
  intro file
  cases file with
  | none =>
    constructor
    · intro h
      cases h
    · rintro ⟨s, hs, _⟩
      cases hs
  | some s =>
    constructor
    · intro h
      refine ⟨s, rfl, ?_⟩
      cases hp : parseJsonStrObj s with
      | none => rfl
      | some kvs =>
        rw [loadHashes] at h
        simp only [Option.getD] at h
        rw [fromJsonStr, hp] at h
        simp only [Option.map] at h
        cases h
    · rintro ⟨s2, hs2, hp⟩
      cases hs2
      rw [loadHashes]
      simp only [Option.getD]
      rw [fromJsonStr, hp]
      rfl

/-- C8: for both fetcher variants, a command that cannot be started fails
with a spawn error; a non-success exit surfaces the captured stdout and
stderr verbatim before failing with the exit code; stdout that is not valid
text fails with a decoding error; and for the version-control variant, text
that is not parsable as the expected JSON payload with a `sha256` field
fails with a decoding error. -/
theorem claim8_fetcher_errors :
    (∀ (run : Runner) (cmd : String) (args : List String),
        run cmd args = .spawnFailed →
          get_command_output run cmd args = ([], .error (.processSpawnFailed cmd))) ∧
    (∀ (run : Runner) (cmd : String) (args : List String) (o : CmdOutput),
        run cmd args = .completed o → o.success = false →
          get_command_output run cmd args =
            ([.outBytes o.stdout, .errBytes o.stderr],
              .error (.processExitedNonzero cmd (o.code.getD (-1))))) ∧
    (∀ (run : Runner) (cmd : String) (args : List String) (o : CmdOutput),
        run cmd args = .completed o → o.success = true → o.stdout = .notUtf8 →
          get_command_output run cmd args = ([], .error (.outputNotDecodable cmd))) ∧
    (∀ (run : Runner) (d : CrateDerivation) (url rev : String) (refName : Option String)
        (sha0 : Option String) (em : List Emission) (json : String),
        d.source = .git url rev refName sha0 →
        get_command_output run "nix-prefetch-git" (gitArgs url rev refName) = (em, .ok json) →
        gitInfoSha256 json = none →
          (nix_prefetch_from_git run d).2 = .error .gitOutputNotParsable) := by
  refine ⟨?_, ?_, ?_, ?_⟩
  · intro run cmd args h
    rw [get_command_output, h]
  · intro run cmd args o h hs
    rw [get_command_output, h]
    simp [hs]
  · intro run cmd args o h hs hb
    rw [get_command_output, h]
    simp [hs, hb]
  · intro run d url rev refName sha0 em json hsrc hget hsha
    rw [nix_prefetch_from_git, hsrc]
    simp only
    rw [hget]
    simp [hsha]

/-- C8 witness: each failure mode exercised at a concrete input. -/
theorem claim8_witness :
    (exRunFail "c" [] = .spawnFailed ∧
      get_command_output exRunFail "c" [] = ([], .error (.processSpawnFailed "c"))) ∧
    (exRunExit "c" [] = .completed ⟨false, some 3, .utf8 "out", .utf8 "err"⟩ ∧
      get_command_output exRunExit "c" [] =
        ([.outBytes (.utf8 "out"), .errBytes (.utf8 "err")],
          .error (.processExitedNonzero "c" ((some (3 : Int)).getD (-1))))) ∧
    (exRunBad "c" [] = .completed ⟨true, some 0, .notUtf8, .utf8 ""⟩ ∧
      get_command_output exRunBad "c" [] = ([], .error (.outputNotDecodable "c"))) ∧
    (exDeriv2.source = .git "https://ex.org/r" "dead" none none ∧
      get_command_output exRunNotJson "nix-prefetch-git" (gitArgs "https://ex.org/r" "dead" none)
        = ([], .ok "gar") ∧
      gitInfoSha256 "gar" = none ∧
      (nix_prefetch_from_git exRunNotJson exDeriv2).2 = .error .gitOutputNotParsable) :=
  ⟨⟨rfl, claim8_fetcher_errors.1 exRunFail "c" [] rfl⟩,
    ⟨rfl, claim8_fetcher_errors.2.1 exRunExit "c" []
      ⟨false, some 3, .utf8 "out", .utf8 "err"⟩ rfl rfl⟩,
    ⟨rfl, claim8_fetcher_errors.2.2.1 exRunBad "c" []
      ⟨true, some 0, .notUtf8, .utf8 ""⟩ rfl rfl rfl⟩,
    ⟨rfl, rfl, rfl, claim8_fetcher_errors.2.2.2 exRunNotJson exDeriv2 "https://ex.org/r"
      "dead" none none [] "gar" rfl rfl rfl⟩⟩

/-- C9: on a non-success exit of the builder, `nix_build` writes every line
of the generated build file to standard output prefixed with its 1-based line
number right-aligned in 5 characters followed by a colon and a space, and
fails tagged with the builder's exit code; on success it reports success and
returns without error. -/
theorem claim9_build_failure_dump :
    (∀ (dir : String) (c : Int) (lines : List String),
        nix_build dir (.exited false (some c)) (some lines) =
          ⟨dump_with_lines lines, ["Building " ++ dir ++ "."],
            .error (.buildFailed dir c)⟩) ∧
    (∀ (lines : List String) (i : Nat),
        (dump_with_lines lines)[i]? =
          lines[i]?.map (fun l => padLeft5 (toString (i + 1)) ++ ": " ++ l)) ∧
    (∀ (lines : List String), (dump_with_lines lines).length = lines.length) ∧
    (∀ (dir : String) (code : Option Int) (f : Option (List String)),
        nix_build dir (.exited true code) f =
          ⟨[], ["Building " ++ dir ++ ".", "Built " ++ dir ++ " successfully."], .ok ()⟩) := by
  refine ⟨?_, ?_, ?_, ?_⟩
  · intro dir c lines
    rfl
  · intro lines i
    rw [dump_with_lines, List.getElem?_map, List.getElem?_enum]
    cases lines[i]? <;> rfl
  · intro lines
    rw [dump_with_lines, List.length_map, List.enum_length]
  · intro dir code f
    rfl

/-- C2: when every dispatched fetch task completes successfully, the run
returns a mapping with an entry for every selected package — cached and
freshly fetched alike — and persists the reconciled cache (written only when
it differs from the loaded one) before returning. -/
theorem claim2_full_mapping {run : Runner} {old : Hmap} {perm : List Nat}
    {ds : List CrateDerivation} {m : Hmap}
    (hperm : perm.Perm (List.range (selectedOf ds).length))
    (hok : (prefetchCore run old perm ds).result = .ok m) :
    (∀ p ∈ selectedOf ds, (hmFind m p.package_id).isSome) ∧
    (prefetchCore run old perm ds).written = (if m = old then none else some m) := by
  refine ⟨prefetchCore_ok_find hperm hok, ?_⟩
  cases hc : collectOf run old perm ds with
  | error e =>
    rw [prefetchCore, hc] at hok
    cases hok
  | ok pairs =>
    rw [prefetchCore, hc] at hok
    simp only at hok
    cases hok
    rw [prefetchCore, hc]

/-- C2 witness: a two-package run (one registry, one git) in which both
fetches succeed; the returned mapping holds both identities and is persisted
since it differs from the empty loaded cache. -/
theorem claim2_witness :
    ([0, 1] : List Nat).Perm (List.range (selectedOf [exDeriv1, exDeriv2]).length) ∧
    (prefetchCore exRun [] [0, 1] [exDeriv1, exDeriv2]).result =
      .ok [("id-a", "HASHA"), ("id-b", "HASHB")] ∧
    ((∀ p ∈ selectedOf [exDeriv1, exDeriv2],
        (hmFind [("id-a", "HASHA"), ("id-b", "HASHB")] p.package_id).isSome) ∧
      (prefetchCore exRun [] [0, 1] [exDeriv1, exDeriv2]).written =
        (if [("id-a", "HASHA"), ("id-b", "HASHB")] = ([] : Hmap) then none
          else some [("id-a", "HASHA"), ("id-b", "HASHB")])) :=
  ⟨by decide, rfl, @claim2_full_mapping exRun [] [0, 1] [exDeriv1, exDeriv2]
    [("id-a", "HASHA"), ("id-b", "HASHB")] (by decide) rfl⟩

/-- C3: a single failing fetch task aborts the whole prefetch run with an
error and no cache file write occurs — hashes already computed in memory for
sibling tasks are discarded and the persisted cache file is unchanged. -/
theorem claim3_failure_aborts {run : Runner} {file : Option String} {old : Hmap}
    {perm : List Nat} {ds : List CrateDerivation} {p : CrateDerivation} {e : PrefetchError}
    (hload : loadHashes file = .ok old)
    (hperm : perm.Perm (List.range (selectedOf ds).length))
    (hp : p ∈ selectedOf ds)
    (hfail : runTask run old p = .error e) :
    (∃ e2, (prefetch run file perm ds).result = .error e2) ∧
    (prefetch run file perm ds).written = none := by
  have hmem0 : runTask run old p ∈ (selectedOf ds).map (runTask run old) :=
    List.mem_map_of_mem _ hp
  rw [hfail] at hmem0
  have hpp : (permuteResults perm ((selectedOf ds).map (runTask run old))).Perm
      ((selectedOf ds).map (runTask run old)) := by
    apply permuteResults_perm
    rw [List.length_map]
    exact hperm
  have hmem : Except.error e ∈ permuteResults perm ((selectedOf ds).map (runTask run old)) :=
    hpp.symm.subset hmem0
  obtain ⟨e2, he2⟩ := sequenceResults_error_of_mem hmem
  have hc : collectOf run old perm ds = .error e2 := he2
  rw [prefetch, hload]
  simp only
  rw [prefetchCore, hc]
  exact ⟨⟨e2, rfl⟩, rfl⟩

/-- C3 witness: one uncached registry package in a world where the external
command cannot be spawned. -/
theorem claim3_witness :
    loadHashes none = .ok [] ∧
    ([0] : List Nat).Perm (List.range (selectedOf [exDeriv1]).length) ∧
    exDeriv1 ∈ selectedOf [exDeriv1] ∧
    runTask exRunFail [] exDeriv1 = .error (.processSpawnFailed "nix-prefetch-url") ∧
    ((∃ e2, (prefetch exRunFail none [0] [exDeriv1]).result = .error e2) ∧
      (prefetch exRunFail none [0] [exDeriv1]).written = none) :=
  ⟨rfl, by decide, by decide, rfl,
    @claim3_failure_aborts exRunFail none [] [0] [exDeriv1] exDeriv1
      (.processSpawnFailed "nix-prefetch-url") rfl (by decide) (by decide) rfl⟩

/-- C10: if the run returns an error — a corrupt cache or any failing fetch
task — the caller's derivation list is exactly as it was before the call: the
write-back of resolved sources happens only after every task has completed
successfully. -/
theorem claim10_no_mutation_on_error {run : Runner} {file : Option String}
    {perm : List Nat} {ds : List CrateDerivation} {e : PrefetchError}
    (h : (prefetch run file perm ds).result = .error e) :
    (prefetch run file perm ds).derivations = ds := by
  cases hload : loadHashes file with
  | error e0 =>
    rw [prefetch, hload]
  | ok old =>
    rw [prefetch, hload] at h ⊢
    simp only at h ⊢
    cases hc : collectOf run old perm ds with
    | error e2 =>
      rw [prefetchCore, hc]
    | ok pairs =>
      rw [prefetchCore, hc] at h
      cases h

/-- C10 witness: the failing run of the C3 scenario leaves the derivation
list untouched. -/
theorem claim10_witness :
    (prefetch exRunFail none [0] [exDeriv1]).result =
      .error (.processSpawnFailed "nix-prefetch-url") ∧
    (prefetch exRunFail none [0] [exDeriv1]).derivations = [exDeriv1] :=
  ⟨rfl, @claim10_no_mutation_on_error exRunFail none [0] [exDeriv1]
    (.processSpawnFailed "nix-prefetch-url") rfl⟩

/-- C4: for every selected package whose identity is in the loaded cache
mapping, the cached value is used (trimmed) and no external command is
invoked — the task's outcome is independent of the external world. As a
consequence, a second run against the mapping returned (and persisted) by a
successful first run performs zero external fetch invocations and its whole
outcome is independent of the external world. -/
theorem claim4_cache_short_circuit :
    (∀ (run run2 : Runner) (old : Hmap) (p : CrateDerivation) (h : String),
        hmFind old p.package_id = some h →
          runTask run old p = runTask run2 old p ∧
          runTask run old p =
            .ok (⟨p.source.with_sha256 (strTrim h), p.package_id, strTrim h⟩, 0)) ∧
    (∀ (run : Runner) (perm : List Nat) (ds : List CrateDerivation) (m : Hmap),
        perm.Perm (List.range (selectedOf ds).length) →
        (prefetchCore run [] perm ds).result = .ok m →
          externalFetches m ds = 0 ∧
          ∀ (run2 run3 : Runner) (perm2 : List Nat),
            prefetchCore run2 m perm2 ds = prefetchCore run3 m perm2 ds) := by
  constructor
  · intro run run2 old p h hc
    exact runTask_cached hc
  · intro run perm ds m hperm hok
    have hall : ∀ p ∈ selectedOf ds, (hmFind m p.package_id).isSome :=
      prefetchCore_ok_find hperm hok
    constructor
    · rw [externalFetches, List.length_eq_zero, List.filter_eq_nil_iff]
      intro p hp
      have := hall p hp
      cases hf : hmFind m p.package_id with
      | none => rw [hf] at this; cases this
      | some h => simp [hf]
    · intro run2 run3 perm2
      have hmap : (selectedOf ds).map (runTask run2 m) = (selectedOf ds).map (runTask run3 m) := by
        apply List.map_congr_left
        intro p hp
        have := hall p hp
        cases hf : hmFind m p.package_id with
        | none => rw [hf] at this; cases this
        | some h => exact (runTask_cached hf).1
      have hcoll : collectOf run2 m perm2 ds = collectOf run3 m perm2 ds := by
        rw [collectOf, collectOf, hmap]
      rw [prefetchCore, prefetchCore, hcoll]

/-- C4 witness: a cached task is world-independent and yields the trimmed
cached hash with no progress increment; after the successful first run of
the C2 scenario, a second run against the returned mapping makes zero
external fetches and is world-independent. -/
theorem claim4_witness :
    (hmFind [("id-a", "H")] exDeriv1.package_id = some "H" ∧
      (runTask exRun [("id-a", "H")] exDeriv1 = runTask exRunFail [("id-a", "H")] exDeriv1 ∧
        runTask exRun [("id-a", "H")] exDeriv1 =
          .ok (⟨exDeriv1.source.with_sha256 (strTrim "H"), exDeriv1.package_id, strTrim "H"⟩,
            0))) ∧
    (externalFetches [("id-a", "HASHA"), ("id-b", "HASHB")] [exDeriv1, exDeriv2] = 0 ∧
      ∀ (run2 run3 : Runner) (perm2 : List Nat),
        prefetchCore run2 [("id-a", "HASHA"), ("id-b", "HASHB")] perm2 [exDeriv1, exDeriv2] =
          prefetchCore run3 [("id-a", "HASHA"), ("id-b", "HASHB")] perm2 [exDeriv1, exDeriv2]) :=
  ⟨⟨rfl, claim4_cache_short_circuit.1 exRun exRunFail [("id-a", "H")] exDeriv1 "H" rfl⟩,
    claim4_cache_short_circuit.2 exRun [0, 1] [exDeriv1, exDeriv2]
      [("id-a", "HASHA"), ("id-b", "HASHB")] (by decide) rfl⟩

/-- C5: the cache file is written only when the reconciled mapping differs
from the loaded one; no write occurs exactly when the two mappings are
pointwise equal. -/
theorem claim5_write_avoidance {run : Runner} {file : Option String} {old : Hmap}
    {perm : List Nat} {ds : List CrateDerivation} {m : Hmap}
    (hload : loadHashes file = .ok old)
    (hok : (prefetchCore run old perm ds).result = .ok m) :
    ((prefetchCore run old perm ds).written = none ↔ ∀ k, hmFind m k = hmFind old k) := by
  cases hc : collectOf run old perm ds with
  | error e =>
    rw [prefetchCore, hc] at hok
    cases hok
  | ok pairs =>
    rw [prefetchCore, hc] at hok
    simp only at hok
    cases hok
    rw [prefetchCore, hc]
    simp only
    constructor
    · intro hw
      by_cases he : hashesOf pairs = old
      · intro k
        rw [he]
      · rw [if_neg he] at hw
        cases hw
    · intro hpt
      have he : hashesOf pairs = old :=
        hmExt (hashesOf_sorted pairs) (loadHashes_sorted hload) hpt
      rw [if_pos he]

/-- C5 witness: a run whose only package is already cached reconciles to the
same mapping that was loaded, and no write occurs. -/
theorem claim5_witness :
    loadHashes (some exCacheText) = .ok [("id-a", "H")] ∧
    (prefetchCore exRunFail [("id-a", "H")] [0] [exDeriv1]).result = .ok [("id-a", "H")] ∧
    ((prefetchCore exRunFail [("id-a", "H")] [0] [exDeriv1]).written = none ↔
      ∀ k, hmFind [("id-a", "H")] k = hmFind [("id-a", "H")] k) :=
  ⟨rfl, rfl, @claim5_write_avoidance exRunFail (some exCacheText) [("id-a", "H")] [0]
    [exDeriv1] [("id-a", "H")] rfl rfl⟩

/-- C7: the progress bar's length is the number of unique sources (by
source-descriptor equality) among selected packages lacking a cached hash,
computed from the loaded cache and package list alone (hence before any
dispatch); a task increments the progress counter exactly once when it
performs an external fetch that completes, and zero times on a cache hit. -/
theorem claim7_progress :
    (∀ (run : Runner) (old : Hmap) (perm : List Nat) (ds : List CrateDerivation),
        (prefetchCore run old perm ds).progressTotal =
          (((selectedOf ds).filter (fun p => (hmFind old p.package_id).isNone)).map
            (fun p => p.source)).toFinset.card) ∧
    (∀ (run : Runner) (old : Hmap) (p : CrateDerivation) (h : String),
        hmFind old p.package_id = some h →
          runTask run old p =
            .ok (⟨p.source.with_sha256 (strTrim h), p.package_id, strTrim h⟩, 0)) ∧
    (∀ (run : Runner) (old : Hmap) (p : CrateDerivation) (sha : String),
        hmFind old p.package_id = none → fetchSource run p = .ok sha →
          runTask run old p = .ok (⟨p.source.with_sha256 sha, p.package_id, sha⟩, 1)) := by
  refine ⟨?_, ?_, ?_⟩
  · intro run old perm ds
    have htotal : (prefetchCore run old perm ds).progressTotal = totalOf old ds := by
      cases hc : collectOf run old perm ds with
      | error e => rw [prefetchCore, hc]
      | ok pairs => rw [prefetchCore, hc]
    rw [htotal, totalOf, uniqueByAux_length]
    simp
  · intro run old p h hc
    exact (@runTask_cached run run old p h hc).2
  · intro run old p sha hc hf
    rw [runTask, hc, hf]

/-- C7 witness: a two-package run with nothing cached has progress length 2
(two distinct sources); a cached task increments zero times; an uncached
task whose fetch completes increments once. -/
theorem claim7_witness :
    (prefetchCore exRun [] [0, 1] [exDeriv1, exDeriv2]).progressTotal =
      (((selectedOf [exDeriv1, exDeriv2]).filter
        (fun p => (hmFind [] p.package_id).isNone)).map (fun p => p.source)).toFinset.card ∧
    (hmFind [("id-a", "H")] exDeriv1.package_id = some "H" ∧
      runTask exRun [("id-a", "H")] exDeriv1 =
        .ok (⟨exDeriv1.source.with_sha256 (strTrim "H"), exDeriv1.package_id, strTrim "H"⟩,
          0)) ∧
    (hmFind [] exDeriv1.package_id = none ∧ fetchSource exRun exDeriv1 = .ok "HASHA" ∧
      runTask exRun [] exDeriv1 =
        .ok (⟨exDeriv1.source.with_sha256 "HASHA", exDeriv1.package_id, "HASHA"⟩, 1)) :=
  ⟨claim7_progress.1 exRun [] [0, 1] [exDeriv1, exDeriv2],
    ⟨rfl, claim7_progress.2.1 exRun [("id-a", "H")] exDeriv1 "H" rfl⟩,
    ⟨rfl, rfl, claim7_progress.2.2 exRun [] exDeriv1 "HASHA" rfl rfl⟩⟩

end Crate2nix
